import Mathlib

/-!
Verification of the TextGAN RelbarGAN/GumbelGAN core: a shallow embedding of
`instructor/real_data/relbargan_instructor.py` and `models/GumbelGAN_G.py`,
with theorems settling the specification claims about gradient injection,
positivity of the learned scalars, the training-loop phase structure, the
Gumbel relaxed sampler, discriminator updates and the sampling shape contract.
-/

/- ===================== Definitions: gradient injection (C2) =====================

`adv_train_generator` (relbargan_instructor.py, lines 132-133):
    temperature_grad = temperature_grad if cfg.learn_temperature else torch.zeros_like(temperature_grad)
    eta_grad = eta_grad if cfg.learn_eta else torch.zeros_like(eta_grad)
Tensors are modelled as functions `Fin n → ℚ`. -/

/-- Model of `torch.zeros_like(g)`: a tensor of the same shape as `g`, all entries zero. -/
def torchZerosLike {n : ℕ} (_g : Fin n → ℚ) : Fin n → ℚ := fun _ => 0

/-- Line 132: the temperature gradient handed to the optimizer callback. -/
def injectedTemperatureGrad {n : ℕ} (learn_temperature : Bool) (temperature_grad : Fin n → ℚ) :
    Fin n → ℚ :=
  if learn_temperature then temperature_grad else torchZerosLike temperature_grad

/-- Line 133: the eta gradient handed to the optimizer callback. -/
def injectedEtaGrad {n : ℕ} (learn_eta : Bool) (eta_grad : Fin n → ℚ) : Fin n → ℚ :=
  if learn_eta then eta_grad else torchZerosLike eta_grad

/- ===================== Definitions: clamped scalar updates (C3) =====================

The instructor optimizes `self.gen.temperature` and `self.gen.eta` through
`self.optimize(self.gen_adv_opt, ...)` with the gradients injected by
`set_variance_loss_gradients`.  The generator (`models/RelbarGAN_G.py`) and
`BasicInstructor.optimize` are not under src/. -/

/-- Modelled from the spec: the optimizer update applied to the temperature and eta scalars of the generator.  `RelbarGAN_G` and `BasicInstructor.optimize`, where
the update of the learnable scalars lives, are not under src/; the spec states
the invariant is "enforced by clamping or reparameterization", so the update is
modelled as a gradient step clamped to a strictly positive floor. -/
def clampedScalarStep (floor lr grad x : ℚ) : ℚ := max floor (x - lr * grad)

/-- The scalar after `n` successive clamped optimizer steps with per-step
gradients `grads`. -/
def iterClampedSteps (floor lr : ℚ) (grads : ℕ → ℚ) : ℕ → ℚ → ℚ
  | 0, x => x
  | n + 1, x => iterClampedSteps floor lr grads n (clampedScalarStep floor lr (grads n) x)

/- ===================== Definitions: discriminator update trace (C9) =====================

`adv_train_discriminator` (relbargan_instructor.py, lines 144-170): each of the
`d_step` iterations draws a real batch and a generated batch, one-hot encodes
both, scores both with the discriminator, computes the loss of the configured
loss family, then zero_grad / backward / clip_grad_norm_ / step.
Events are indexed by the step counter `k`. -/

/-- One observable operation of a discriminator adversarial update. -/
inductive DisEvent where
  | sampleReal (k : ℕ)
  | sampleGen (k : ℕ)
  | oneHotReal (k : ℕ)
  | oneHotGen (k : ℕ)
  | scoreReal (k : ℕ)
  | scoreFake (k : ℕ)
  | computeLoss (k : ℕ) (loss_type : String)
  | zeroGrad (k : ℕ)
  | backwardLoss (k : ℕ)
  | clipGradNorm (k : ℕ)
  | optStep (k : ℕ)
  deriving DecidableEq, Repr

/-- The operations of iteration `k` of the `for step in range(d_step)` loop of
`adv_train_discriminator`, in source order (lines 149-164). -/
def disUpdateStep (loss_type : String) (k : ℕ) : List DisEvent :=
  [DisEvent.sampleReal k, DisEvent.sampleGen k,
   DisEvent.oneHotReal k, DisEvent.oneHotGen k,
   DisEvent.scoreReal k, DisEvent.scoreFake k,
   DisEvent.computeLoss k loss_type,
   DisEvent.zeroGrad k, DisEvent.backwardLoss k,
   DisEvent.clipGradNorm k, DisEvent.optStep k]

/-- The operation trace of `adv_train_discriminator(d_step, adv_epoch)`:
the step bodies for `k = 0, …, d_step - 1` in order. -/
def advTrainDiscriminatorTrace (d_step : ℕ) (loss_type : String) : List DisEvent :=
  (List.range d_step).flatMap (disUpdateStep loss_type)

/- ===================== Definitions: generator sampling shape (C10) =====================

`GumbelGAN_G.sample` (GumbelGAN_G.py, lines 38-69), `one_hot=False` path: the
number of whole batches generated, and the resulting token matrix truncated to
`num_samples` rows.  The LSTM state and Gumbel noise are abstracted into a
token oracle `tok r i`: the token written at global row `r`, position `i`. -/

/-- Line 46: `num_batch = num_samples // batch_size + 1 if num_samples != batch_size else 1`. -/
def numBatch (num_samples batch_size : ℕ) : ℕ :=
  if num_samples ≠ batch_size then num_samples / batch_size + 1 else 1

/-- Lines 47-65: a `num_batch * batch_size × max_seq_len` matrix is filled row
by row (every row of every whole batch), then truncated with
`samples = samples[:num_samples]`. -/
def gumbelSampleTokens (tok : ℕ → ℕ → ℕ) (num_samples batch_size max_seq_len : ℕ) :
    List (List ℕ) :=
  ((List.range (numBatch num_samples batch_size * batch_size)).map
    (fun r => (List.range max_seq_len).map (fun i => tok r i))).take num_samples

/- ===================== Definitions: training run trace (C4, C5) =====================

`_run` (relbargan_instructor.py, lines 53-87): generator MLE pretraining when
`cfg.gen_pretrain` is unset, discriminator pretraining when `cfg.dis_pretrain`
is unset, then the adversarial loop `for adv_epoch in range(cfg.ADV_train_epoch)`.
Each round logs on the logging interval, calls `self.sig.update()` and reads
`self.sig.adv_sig`; on a true signal it runs the generator and discriminator
updates and possibly saves a checkpoint, on a false signal it logs the stop and
breaks.  `adv_sig e` models the signal value read at round `e`. -/

/-- One observable event of `_run`. -/
inductive RunEvent where
  | phasePretrainG
  | phasePretrainD
  | phaseAdvStart
  | logEpoch (e : ℕ)
  | pollSignal (e : ℕ)
  | genUpdate (e : ℕ)
  | disUpdate (e : ℕ)
  | saveCheckpoint (e : ℕ)
  | stopLogExit (e : ℕ)
  deriving DecidableEq, Repr

/-- The configuration read by `_run`. -/
structure RunConfig where
  gen_pretrain : Bool
  dis_pretrain : Bool
  if_save : Bool
  if_test : Bool
  ADV_train_epoch : ℕ
  adv_log_step : ℕ

/-- Lines 79-84: the updates of a round whose signal was true — generator step,
discriminator step, checkpoint when the epoch is on the logging interval and
saving is enabled outside test mode. -/
def advRoundUpdates (cfg : RunConfig) (e : ℕ) : List RunEvent :=
  [RunEvent.genUpdate e, RunEvent.disUpdate e] ++
    (if e % cfg.adv_log_step = 0 ∧ cfg.if_save = true ∧ cfg.if_test = false
     then [RunEvent.saveCheckpoint e] else [])

/-- Lines 74-87: the adversarial loop, with `n` epochs remaining and current
epoch index `e`. -/
def advLoopTrace (cfg : RunConfig) (adv_sig : ℕ → Bool) : ℕ → ℕ → List RunEvent
  | 0, _ => []
  | n + 1, e =>
      (if e % cfg.adv_log_step = 0 then [RunEvent.logEpoch e] else []) ++
      RunEvent.pollSignal e ::
        (if adv_sig e
         then advRoundUpdates cfg e ++ advLoopTrace cfg adv_sig n (e + 1)
         else [RunEvent.stopLogExit e])

/-- The events of one full (signal-true) adversarial round. -/
def fullRound (cfg : RunConfig) (e : ℕ) : List RunEvent :=
  (if e % cfg.adv_log_step = 0 then [RunEvent.logEpoch e] else []) ++
    RunEvent.pollSignal e :: advRoundUpdates cfg e

/-- Lines 53-87: the whole `_run`, at phase granularity for the two pretraining
phases (`if not cfg.gen_pretrain`, `if not cfg.dis_pretrain`) followed by the
adversarial loop. -/
def runTrace (cfg : RunConfig) (adv_sig : ℕ → Bool) : List RunEvent :=
  (if cfg.gen_pretrain then [] else [RunEvent.phasePretrainG]) ++
  (if cfg.dis_pretrain then [] else [RunEvent.phasePretrainD]) ++
  RunEvent.phaseAdvStart :: advLoopTrace cfg adv_sig cfg.ADV_train_epoch 0

/-- Phase markers among run events. -/
def isPhaseMarker : RunEvent → Bool
  | RunEvent.phasePretrainG => true
  | RunEvent.phasePretrainD => true
  | RunEvent.phaseAdvStart => true
  | _ => false

/- ===================== Definitions: Gumbel relaxed sampler (C6, C7, C8) =====================

`GumbelGAN_G.step` and `GumbelGAN_G.add_gumbel` (GumbelGAN_G.py, lines 16-36
and 72-82).  Logits live in `Fin (n + 1) → ℝ` (one row of the batch over a
nonempty vocabulary); the uniform noise tensor `u` is the draw of
`u.uniform_(0, 1)`. -/

/-- The additive guard `eps=1e-10` of `add_gumbel`. -/
noncomputable def gumbelEps : ℝ := 1 / 10 ^ 10

/-- Model of `F.softmax(x, dim=-1)`. -/
noncomputable def softmax {n : ℕ} (x : Fin n → ℝ) : Fin n → ℝ :=
  fun i => Real.exp (x i) / ∑ j, Real.exp (x j)

/-- Line 80: `gumbel_t = torch.log(F.softmax(theta_logit, dim=-1) + eps)
- torch.log(-torch.log(u + eps) + eps)`. -/
noncomputable def addGumbel {n : ℕ} (theta_logit u : Fin (n + 1) → ℝ) : Fin (n + 1) → ℝ :=
  fun i => Real.log (softmax theta_logit i + gumbelEps) -
    Real.log (-Real.log (u i + gumbelEps) + gumbelEps)

/-- Model of `torch.argmax(x, dim=1)`: the first index attaining the maximum. -/
noncomputable def torchArgmax {n : ℕ} (x : Fin (n + 1) → ℝ) : Fin (n + 1) :=
  (List.finRange (n + 1)).foldl (fun best i => if x best < x i then i else best) 0

/-- The observable outputs of `GumbelGAN_G.step` (the unused
`next_token_onehot` is `None` in the source). -/
structure GumbelStepOut (n : ℕ) where
  pred : Fin (n + 1) → ℝ
  nextToken : Fin (n + 1)

/-- Lines 29-36: `gumbel_t = add_gumbel(lstm2out(...))`;
`next_token = argmax(gumbel_t, dim=1)`;
`pred = F.softmax(gumbel_t * self.temperature, dim=-1)`.
`theta_logit` stands for the LSTM output row `lstm2out(out.squeeze(1))`. -/
noncomputable def gumbelStep {n : ℕ} (theta_logit u : Fin (n + 1) → ℝ) (temperature : ℝ) :
    GumbelStepOut n :=
  let gumbel_t := addGumbel theta_logit u
  { pred := softmax (fun i => gumbel_t i * temperature),
    nextToken := torchArgmax gumbel_t }

/-- A concrete configuration used by closed witnesses. -/
def witnessCfg : RunConfig :=
  { gen_pretrain := false, dis_pretrain := false, if_save := true, if_test := false,
    ADV_train_epoch := 5, adv_log_step := 2 }

/-- A concrete signal sequence: true for the first two rounds, then false. -/
def witnessSig : ℕ → Bool := fun k => decide (k < 2)

/- ===================== Theorems ===================== -/

/-- C2: with `learn_temperature` disabled the temperature gradient injected into
the optimizer is exactly the zero tensor, and with `learn_eta` disabled the
injected eta gradient is exactly zero, whatever gradients the estimator
computed. -/
theorem disabled_flags_inject_zero_gradient {n : ℕ}
    (temperature_grad eta_grad : Fin n → ℚ) (i : Fin n) :
    injectedTemperatureGrad false temperature_grad i = 0 ∧
    injectedEtaGrad false eta_grad i = 0 := by
  constructor <;> rfl

/-- C3 (spec-modelled): a strictly positive scalar stays strictly positive after
any number of clamped optimizer steps, whatever the gradients: temperature and
eta remain strictly positive throughout training. -/
theorem clamped_scalar_stays_positive (floor lr x : ℚ) (grads : ℕ → ℚ) (n : ℕ)
    (hfloor : 0 < floor) (hx : 0 < x) :
    0 < iterClampedSteps floor lr grads n x := by
  induction n generalizing x with
  | zero => exact hx
  | succ m ih =>
      exact ih _ (lt_of_lt_of_le hfloor (le_max_left _ _))

/-- Witness for C3 at floor 1/100, lr 1, constant gradient 5, three steps from 1. -/
theorem clamped_scalar_stays_positive_witness :
    0 < (1 / 100 : ℚ) ∧ 0 < (1 : ℚ) ∧
    0 < iterClampedSteps (1 / 100) 1 (fun _ => 5) 3 1 :=
  ⟨by norm_num, by norm_num,
   clamped_scalar_stays_positive (1 / 100) 1 1 (fun _ => 5) 3 (by norm_num) (by norm_num)⟩

/- Helper lemmas for C9. -/

lemma range_flatMap_split {α : Type} (f : ℕ → List α) (d k : ℕ) (hk : k < d) :
    (List.range d).flatMap f =
      ((List.range k).flatMap f) ++ f k ++
        ((List.range (d - (k + 1))).map (fun x => k + 1 + x)).flatMap f := by
  have h : List.range d =
      List.range k ++ [k] ++ (List.range (d - (k + 1))).map (fun x => k + 1 + x) := by
    have h1 : List.range d =
        List.range (k + 1) ++ (List.range (d - (k + 1))).map (fun x => k + 1 + x) := by
      have := List.range_add (k + 1) (d - (k + 1))
      rw [Nat.add_sub_cancel' hk] at this
      simpa using this
    rw [h1, List.range_succ]
  rw [h]
  simp [List.flatMap_append]

lemma count_disUpdateStep (lt : String) (k j : ℕ) :
    (disUpdateStep lt j).count (DisEvent.clipGradNorm k) = if j = k then 1 else 0 := by
  by_cases h : j = k <;> simp [disUpdateStep, List.count_cons, h]

lemma count_clip_advTrace (d : ℕ) (lt : String) (k : ℕ) (hk : k < d) :
    (advTrainDiscriminatorTrace d lt).count (DisEvent.clipGradNorm k) = 1 := by
  induction d with
  | zero => omega
  | succ m ih =>
      rw [advTrainDiscriminatorTrace, List.range_succ, List.flatMap_append,
        List.count_append]
      by_cases hm : k < m
      · have hmk : ¬ m = k := by omega
        simpa [advTrainDiscriminatorTrace, count_disUpdateStep, hmk] using ih hm
      · have hmk : m = k := by omega
        have hz : (advTrainDiscriminatorTrace m lt).count (DisEvent.clipGradNorm k) = 0 := by
          rw [List.count_eq_zero]
          intro hmem
          rw [advTrainDiscriminatorTrace, List.mem_flatMap] at hmem
          obtain ⟨j, hj, hjmem⟩ := hmem
          rw [List.mem_range] at hj
          simp [disUpdateStep] at hjmem
          omega
        simpa [advTrainDiscriminatorTrace, count_disUpdateStep, hmk] using hz

/-- C9: in every adversarial round, each of the `d_step` discriminator updates
is a binary-classification step on one-hot real and generated batches under the
selected loss family, whose operations occur contiguously in source order; in
particular gradient-norm clipping happens exactly once per update, after
`backward()` and before `optimizer.step()`. -/
theorem discriminator_update_clips_between_backward_and_step
    (d_step : ℕ) (loss_type : String) (k : ℕ) (hk : k < d_step) :
    (disUpdateStep loss_type k).IsInfix (advTrainDiscriminatorTrace d_step loss_type) ∧
    (advTrainDiscriminatorTrace d_step loss_type).count (DisEvent.clipGradNorm k) = 1 ∧
    disUpdateStep loss_type k =
      [DisEvent.sampleReal k, DisEvent.sampleGen k,
       DisEvent.oneHotReal k, DisEvent.oneHotGen k,
       DisEvent.scoreReal k, DisEvent.scoreFake k,
       DisEvent.computeLoss k loss_type,
       DisEvent.zeroGrad k, DisEvent.backwardLoss k,
       DisEvent.clipGradNorm k, DisEvent.optStep k] := by
  refine ⟨?_, count_clip_advTrace d_step loss_type k hk, rfl⟩
  rw [advTrainDiscriminatorTrace, range_flatMap_split (disUpdateStep loss_type) d_step k hk]
  exact ⟨(List.range k).flatMap (disUpdateStep loss_type),
         ((List.range (d_step - (k + 1))).map (fun x => k + 1 + x)).flatMap
           (disUpdateStep loss_type),
         by simp⟩

/-- Witness for C9 at `d_step = 2`, `loss_type = "rsgan"`, `k = 0`. -/
theorem discriminator_update_clips_witness :
    (0 < 2) ∧
    ((disUpdateStep "rsgan" 0).IsInfix (advTrainDiscriminatorTrace 2 "rsgan") ∧
     (advTrainDiscriminatorTrace 2 "rsgan").count (DisEvent.clipGradNorm 0) = 1 ∧
     disUpdateStep "rsgan" 0 =
      [DisEvent.sampleReal 0, DisEvent.sampleGen 0,
       DisEvent.oneHotReal 0, DisEvent.oneHotGen 0,
       DisEvent.scoreReal 0, DisEvent.scoreFake 0,
       DisEvent.computeLoss 0 "rsgan",
       DisEvent.zeroGrad 0, DisEvent.backwardLoss 0,
       DisEvent.clipGradNorm 0, DisEvent.optStep 0]) :=
  ⟨by norm_num, discriminator_update_clips_between_backward_and_step 2 "rsgan" 0 (by norm_num)⟩

/-- C10: for `num_samples ≥ 1` and `batch_size ≥ 1`, `sample` with `one_hot`
false returns a `num_samples × max_seq_len` matrix of tokens: whole batches are
generated (`num_samples // batch_size + 1` of them when `num_samples` differs
from `batch_size`, a single one otherwise) and the result is truncated to the
first `num_samples` rows. -/
theorem sample_shape (tok : ℕ → ℕ → ℕ) (num_samples batch_size max_seq_len : ℕ)
    (_hns : 1 ≤ num_samples) (hbs : 1 ≤ batch_size) :
    (gumbelSampleTokens tok num_samples batch_size max_seq_len).length = num_samples ∧
    (∀ row ∈ gumbelSampleTokens tok num_samples batch_size max_seq_len,
      row.length = max_seq_len) ∧
    (num_samples ≠ batch_size → numBatch num_samples batch_size = num_samples / batch_size + 1) ∧
    (num_samples = batch_size → numBatch num_samples batch_size = 1) := by
  have hle : num_samples ≤ numBatch num_samples batch_size * batch_size := by
    rw [numBatch]
    by_cases h : num_samples = batch_size
    · simp [h]
    · rw [if_pos h]
      have hmod := Nat.mod_lt num_samples (show 0 < batch_size by omega)
      have hdm := Nat.div_add_mod num_samples batch_size
      calc num_samples = batch_size * (num_samples / batch_size) + num_samples % batch_size := hdm.symm
        _ ≤ batch_size * (num_samples / batch_size) + batch_size := by omega
        _ = (num_samples / batch_size + 1) * batch_size := by ring
  refine ⟨?_, ?_, fun h => by rw [numBatch, if_pos h], fun h => by rw [numBatch, if_neg (by simp [h])]⟩
  · rw [gumbelSampleTokens, List.length_take, List.length_map, List.length_range]
    omega
  · intro row hrow
    rw [gumbelSampleTokens] at hrow
    have hrow' := List.mem_of_mem_take hrow
    rw [List.mem_map] at hrow'
    obtain ⟨r, _, hr⟩ := hrow'
    rw [← hr, List.length_map, List.length_range]

/-- Witness for C10 at `num_samples = 3`, `batch_size = 2`, `max_seq_len = 4`. -/
theorem sample_shape_witness :
    (1 ≤ 3) ∧ (1 ≤ 2) ∧
    ((gumbelSampleTokens (fun _ _ => 0) 3 2 4).length = 3 ∧
     (∀ row ∈ gumbelSampleTokens (fun _ _ => 0) 3 2 4, row.length = 4) ∧
     (3 ≠ 2 → numBatch 3 2 = 3 / 2 + 1) ∧
     (3 = 2 → numBatch 3 2 = 1)) :=
  ⟨by norm_num, by norm_num, sample_shape (fun _ _ => 0) 3 2 4 (by norm_num) (by norm_num)⟩

/- Helper lemmas for C4 and C5. -/

lemma filter_advRoundUpdates (cfg : RunConfig) (e : ℕ) :
    (advRoundUpdates cfg e).filter isPhaseMarker = [] := by
  rw [advRoundUpdates, List.filter_append]
  split <;> rfl

lemma advLoopTrace_filter_phase (cfg : RunConfig) (adv_sig : ℕ → Bool) :
    ∀ n e, (advLoopTrace cfg adv_sig n e).filter isPhaseMarker = [] := by
  intro n
  induction n with
  | zero => intro e; rfl
  | succ m ih =>
      intro e
      rw [show advLoopTrace cfg adv_sig (m + 1) e =
            (if e % cfg.adv_log_step = 0 then [RunEvent.logEpoch e] else []) ++
            RunEvent.pollSignal e ::
              (if adv_sig e
               then advRoundUpdates cfg e ++ advLoopTrace cfg adv_sig m (e + 1)
               else [RunEvent.stopLogExit e]) from rfl]
      rw [List.filter_append]
      have h1 : (if e % cfg.adv_log_step = 0 then [RunEvent.logEpoch e] else []).filter
          isPhaseMarker = ([] : List RunEvent) := by
        split <;> rfl
      rw [h1, List.nil_append, List.filter_cons_of_neg (by simp [isPhaseMarker])]
      split
      · rw [List.filter_append, filter_advRoundUpdates, ih, List.append_nil]
      · rfl

lemma fullRound_mem_cases (cfg : RunConfig) (k : ℕ) (x : RunEvent)
    (h : x ∈ fullRound cfg k) :
    x = RunEvent.logEpoch k ∨ x = RunEvent.pollSignal k ∨ x = RunEvent.genUpdate k ∨
    x = RunEvent.disUpdate k ∨ x = RunEvent.saveCheckpoint k := by
  rw [fullRound, advRoundUpdates] at h
  rcases List.mem_append.mp h with h1 | h2
  · left
    split at h1
    · simpa using h1
    · simp at h1
  · rcases List.mem_cons.mp h2 with h2a | h2b
    · right; left; exact h2a
    · rcases List.mem_append.mp h2b with h3 | h4
      · rcases List.mem_cons.mp h3 with h3a | h3b
        · right; right; left; exact h3a
        · right; right; right; left; simpa using h3b
      · split at h4
        · right; right; right; right; simpa using h4
        · simp at h4

lemma advLoopTrace_stoppedAux (cfg : RunConfig) (adv_sig : ℕ → Bool) (e : ℕ)
    (hsig : adv_sig e = false) :
    ∀ n s, s ≤ e → e < s + n → (∀ k, s ≤ k → k < e → adv_sig k = true) →
    advLoopTrace cfg adv_sig n s =
      (List.range' s (e - s)).flatMap (fullRound cfg) ++
      (if e % cfg.adv_log_step = 0 then [RunEvent.logEpoch e] else []) ++
      [RunEvent.pollSignal e, RunEvent.stopLogExit e] := by
  intro n
  induction n with
  | zero => intro s hs he _; omega
  | succ m ih =>
      intro s hs he hprev
      by_cases hse : s = e
      · subst hse
        simp [advLoopTrace, hsig, Nat.sub_self]
      · have hslt : s < e := lt_of_le_of_ne hs hse
        have hsigs : adv_sig s = true := hprev s le_rfl hslt
        rw [show advLoopTrace cfg adv_sig (m + 1) s =
              (if s % cfg.adv_log_step = 0 then [RunEvent.logEpoch s] else []) ++
              RunEvent.pollSignal s ::
                (if adv_sig s
                 then advRoundUpdates cfg s ++ advLoopTrace cfg adv_sig m (s + 1)
                 else [RunEvent.stopLogExit s]) from rfl]
        rw [hsigs]
        rw [ih (s + 1) hslt (by omega) (fun k hk1 hk2 => hprev k (by omega) hk2)]
        rw [show e - s = (e - (s + 1)) + 1 by omega, List.range'_succ]
        simp [fullRound, List.append_assoc]

/-- C4: in the adversarial loop, when the stop signal reads true for the first
`e` rounds and false at round `e` (with `e` inside the epoch budget), the trace
is exactly the `e` full rounds — each opening with its single poll before any
update — followed by the poll of the final round and the logged cooperative exit:
no generator or discriminator update happens in the stopping round, and the
checkpoints already written (all from rounds before `e`) are untouched. -/
theorem adv_loop_polls_and_stops_cleanly (cfg : RunConfig) (adv_sig : ℕ → Bool) (e : ℕ)
    (he : e < cfg.ADV_train_epoch) (hsig : adv_sig e = false)
    (hprev : ∀ k, k < e → adv_sig k = true) :
    advLoopTrace cfg adv_sig cfg.ADV_train_epoch 0 =
      (List.range e).flatMap (fullRound cfg) ++
      (if e % cfg.adv_log_step = 0 then [RunEvent.logEpoch e] else []) ++
      [RunEvent.pollSignal e, RunEvent.stopLogExit e] ∧
    RunEvent.genUpdate e ∉ advLoopTrace cfg adv_sig cfg.ADV_train_epoch 0 ∧
    RunEvent.disUpdate e ∉ advLoopTrace cfg adv_sig cfg.ADV_train_epoch 0 ∧
    (∀ k, RunEvent.saveCheckpoint k ∈ advLoopTrace cfg adv_sig cfg.ADV_train_epoch 0 → k < e) := by
  have hmain := advLoopTrace_stoppedAux cfg adv_sig e hsig cfg.ADV_train_epoch 0
    (Nat.zero_le e) (by omega) (fun k _ hk => hprev k hk)
  rw [Nat.sub_zero, ← List.range_eq_range'] at hmain
  refine ⟨hmain, ?_, ?_, ?_⟩
  · rw [hmain]
    intro h
    rcases List.mem_append.mp h with h1 | h2
    · rcases List.mem_append.mp h1 with h1a | h1b
      · rcases List.mem_flatMap.mp h1a with ⟨k, hk, hkmem⟩
        rw [List.mem_range] at hk
        rcases fullRound_mem_cases cfg k _ hkmem with h' | h' | h' | h' | h'
        · simp at h'
        · simp at h'
        · obtain rfl : e = k := by injection h'
          omega
        · simp at h'
        · simp at h'
      · split at h1b
        · simp at h1b
        · simp at h1b
    · simp at h2
  · rw [hmain]
    intro h
    rcases List.mem_append.mp h with h1 | h2
    · rcases List.mem_append.mp h1 with h1a | h1b
      · rcases List.mem_flatMap.mp h1a with ⟨k, hk, hkmem⟩
        rw [List.mem_range] at hk
        rcases fullRound_mem_cases cfg k _ hkmem with h' | h' | h' | h' | h'
        · simp at h'
        · simp at h'
        · simp at h'
        · obtain rfl : e = k := by injection h'
          omega
        · simp at h'
      · split at h1b
        · simp at h1b
        · simp at h1b
    · simp at h2
  · intro k h
    rw [hmain] at h
    rcases List.mem_append.mp h with h1 | h2
    · rcases List.mem_append.mp h1 with h1a | h1b
      · rcases List.mem_flatMap.mp h1a with ⟨j, hj, hjmem⟩
        rw [List.mem_range] at hj
        rcases fullRound_mem_cases cfg j _ hjmem with h' | h' | h' | h' | h'
        · simp at h'
        · simp at h'
        · simp at h'
        · simp at h'
        · obtain rfl : k = j := by injection h'
          omega
      · split at h1b
        · simp at h1b
        · simp at h1b
    · simp at h2

/-- Witness for C4: budget 5, logging interval 2, signal true for rounds 0 and 1
and false at round 2. -/
theorem adv_loop_polls_and_stops_cleanly_witness :
    (2 < witnessCfg.ADV_train_epoch) ∧ witnessSig 2 = false ∧ (∀ k, k < 2 → witnessSig k = true) ∧
    (advLoopTrace witnessCfg witnessSig witnessCfg.ADV_train_epoch 0 =
      (List.range 2).flatMap (fullRound witnessCfg) ++
      (if 2 % witnessCfg.adv_log_step = 0 then [RunEvent.logEpoch 2] else []) ++
      [RunEvent.pollSignal 2, RunEvent.stopLogExit 2] ∧
    RunEvent.genUpdate 2 ∉ advLoopTrace witnessCfg witnessSig witnessCfg.ADV_train_epoch 0 ∧
    RunEvent.disUpdate 2 ∉ advLoopTrace witnessCfg witnessSig witnessCfg.ADV_train_epoch 0 ∧
    (∀ k, RunEvent.saveCheckpoint k ∈ advLoopTrace witnessCfg witnessSig witnessCfg.ADV_train_epoch 0 → k < 2)) :=
  ⟨by decide, by decide, by decide,
   adv_loop_polls_and_stops_cleanly witnessCfg witnessSig 2 (by decide) (by decide)
     (by decide)⟩

/-- C5: a run visits generator pretraining, then discriminator pretraining, then
the adversarial phase, in this order; each pretraining phase is executed exactly
when its pretrained flag is unset, and the adversarial phase always follows
(termination is the end of the — always finite — trace). -/
theorem run_phases_in_order (cfg : RunConfig) (adv_sig : ℕ → Bool) :
    (runTrace cfg adv_sig).filter isPhaseMarker =
      (if cfg.gen_pretrain then [] else [RunEvent.phasePretrainG]) ++
      (if cfg.dis_pretrain then [] else [RunEvent.phasePretrainD]) ++
      [RunEvent.phaseAdvStart] ∧
    (RunEvent.phasePretrainG ∈ runTrace cfg adv_sig ↔ cfg.gen_pretrain = false) ∧
    (RunEvent.phasePretrainD ∈ runTrace cfg adv_sig ↔ cfg.dis_pretrain = false) ∧
    RunEvent.phaseAdvStart ∈ runTrace cfg adv_sig := by
  have hfil := advLoopTrace_filter_phase cfg adv_sig cfg.ADV_train_epoch 0
  have hnoG : RunEvent.phasePretrainG ∉ advLoopTrace cfg adv_sig cfg.ADV_train_epoch 0 := by
    intro h
    have hmem : RunEvent.phasePretrainG ∈
        (advLoopTrace cfg adv_sig cfg.ADV_train_epoch 0).filter isPhaseMarker :=
      List.mem_filter.mpr ⟨h, rfl⟩
    rw [hfil] at hmem
    simp at hmem
  have hnoD : RunEvent.phasePretrainD ∉ advLoopTrace cfg adv_sig cfg.ADV_train_epoch 0 := by
    intro h
    have hmem : RunEvent.phasePretrainD ∈
        (advLoopTrace cfg adv_sig cfg.ADV_train_epoch 0).filter isPhaseMarker :=
      List.mem_filter.mpr ⟨h, rfl⟩
    rw [hfil] at hmem
    simp at hmem
  refine ⟨?_, ?_, ?_, ?_⟩
  · by_cases hg : cfg.gen_pretrain <;> by_cases hd : cfg.dis_pretrain <;>
      simp [runTrace, hg, hd, isPhaseMarker, hfil]
  · by_cases hg : cfg.gen_pretrain <;> by_cases hd : cfg.dis_pretrain <;>
      simp [runTrace, hg, hd, hnoG]
  · by_cases hg : cfg.gen_pretrain <;> by_cases hd : cfg.dis_pretrain <;>
      simp [runTrace, hg, hd, hnoD]
  · simp [runTrace]

/- Helper lemmas for C6, C7, C8. -/

lemma gumbelEps_pos : (0 : ℝ) < gumbelEps := by norm_num [gumbelEps]

lemma softmax_pos {n : ℕ} (x : Fin (n + 1) → ℝ) (i : Fin (n + 1)) : 0 < softmax x i := by
  rw [softmax]
  exact div_pos (Real.exp_pos _)
    (Finset.sum_pos (fun j _ => Real.exp_pos _) Finset.univ_nonempty)

lemma foldl_argmax_le {n : ℕ} (x : Fin (n + 1) → ℝ) :
    ∀ (l : List (Fin (n + 1))) (b : Fin (n + 1)),
      x b ≤ x (l.foldl (fun best i => if x best < x i then i else best) b) ∧
      ∀ i ∈ l, x i ≤ x (l.foldl (fun best i => if x best < x i then i else best) b) := by
  intro l
  induction l with
  | nil => intro b; exact ⟨le_rfl, by simp⟩
  | cons a l ih =>
      intro b
      rw [List.foldl_cons]
      by_cases h : x b < x a
      · rw [if_pos h]
        refine ⟨le_trans h.le (ih a).1, ?_⟩
        intro i hi
        rcases List.mem_cons.mp hi with rfl | hi
        · exact (ih _).1
        · exact (ih _).2 i hi
      · rw [if_neg h]
        refine ⟨(ih b).1, ?_⟩
        intro i hi
        rcases List.mem_cons.mp hi with rfl | hi
        · exact le_trans (not_lt.mp h) (ih b).1
        · exact (ih b).2 i hi

lemma softmax_two_sub (x y : Fin 2 → ℝ) (h : softmax x 0 = softmax y 0) :
    x 1 - x 0 = y 1 - y 0 := by
  rw [softmax, softmax, Fin.sum_univ_two, Fin.sum_univ_two] at h
  have hx : (0 : ℝ) < Real.exp (x 0) + Real.exp (x 1) := by positivity
  have hy : (0 : ℝ) < Real.exp (y 0) + Real.exp (y 1) := by positivity
  rw [div_eq_div_iff hx.ne' hy.ne'] at h
  have h2 : Real.exp (x 0) * Real.exp (y 1) = Real.exp (y 0) * Real.exp (x 1) := by
    nlinarith [h]
  rw [← Real.exp_add, ← Real.exp_add] at h2
  have h3 := Real.exp_eq_exp.mp h2
  linarith

/-- C7: in `add_gumbel`, every logarithm is applied to an argument made strictly
positive by the additive epsilon: for any logits and any uniform noise in
`[0, 1]`, the softmax term plus eps, the noise plus eps, and the outer
`-log(u + eps) + eps` are all strictly positive, so no `log(0)` is evaluated. -/
theorem add_gumbel_log_arguments_positive {n : ℕ} (theta_logit u : Fin (n + 1) → ℝ)
    (hu : ∀ i, 0 ≤ u i ∧ u i ≤ 1) (i : Fin (n + 1)) :
    0 < softmax theta_logit i + gumbelEps ∧
    0 < u i + gumbelEps ∧
    0 < -Real.log (u i + gumbelEps) + gumbelEps := by
  have heps := gumbelEps_pos
  have h1 : 0 < u i + gumbelEps := by
    have := (hu i).1
    linarith
  refine ⟨by linarith [softmax_pos theta_logit i], h1, ?_⟩
  have hlog : Real.log (u i + gumbelEps) < gumbelEps := by
    by_cases h : u i + gumbelEps = 1
    · rw [h, Real.log_one]; exact heps
    · have hlt := Real.log_lt_sub_one_of_pos h1 h
      have := (hu i).2
      linarith
  linarith

/-- Witness for C7 on a one-token vocabulary with zero logits and zero noise. -/
theorem add_gumbel_log_arguments_positive_witness :
    (∀ i : Fin 1, 0 ≤ (fun _ : Fin 1 => (0 : ℝ)) i ∧ (fun _ : Fin 1 => (0 : ℝ)) i ≤ 1) ∧
    (0 < softmax (fun _ : Fin 1 => (0 : ℝ)) 0 + gumbelEps ∧
     0 < (fun _ : Fin 1 => (0 : ℝ)) 0 + gumbelEps ∧
     0 < -Real.log ((fun _ : Fin 1 => (0 : ℝ)) 0 + gumbelEps) + gumbelEps) :=
  ⟨fun _ => ⟨le_rfl, by norm_num⟩,
   add_gumbel_log_arguments_positive (fun _ : Fin 1 => (0 : ℝ)) (fun _ : Fin 1 => (0 : ℝ))
     (fun _ => ⟨le_rfl, by norm_num⟩) 0⟩

/-- C8: the hard sample `next_token` returned by a sampler step is the argmax
over the vocabulary of the Gumbel-perturbed logits `gumbel_t` of that step: it
is `torch.argmax(gumbel_t, dim=1)` and it attains the maximum of `gumbel_t`. -/
theorem step_next_token_is_argmax {n : ℕ} (theta_logit u : Fin (n + 1) → ℝ)
    (temperature : ℝ) :
    (gumbelStep theta_logit u temperature).nextToken = torchArgmax (addGumbel theta_logit u) ∧
    ∀ i, addGumbel theta_logit u i ≤
      addGumbel theta_logit u ((gumbelStep theta_logit u temperature).nextToken) := by
  refine ⟨rfl, fun i => ?_⟩
  exact (foldl_argmax_le (addGumbel theta_logit u) (List.finRange (n + 1)) 0).2 i
    (List.mem_finRange i)

/-- C6 counterexample: at zero logits over a two-token vocabulary, noise
`(0, 1/2)` and temperature `2`, the `pred` returned by the step is not
`softmax(gumbel_t / temperature)` — the source multiplies by the temperature. -/
theorem step_pred_divides_counterexample :
    ¬ ((gumbelStep (fun _ : Fin 2 => (0 : ℝ)) ![0, 1/2] 2).pred =
       softmax (fun i => addGumbel (fun _ : Fin 2 => (0 : ℝ)) ![0, 1/2] i / 2)) := by
  intro h
  have heps := gumbelEps_pos
  have h' : softmax (fun i => addGumbel (fun _ : Fin 2 => (0 : ℝ)) ![0, 1/2] i * 2) =
      softmax (fun i => addGumbel (fun _ : Fin 2 => (0 : ℝ)) ![0, 1/2] i / 2) := h
  have key := softmax_two_sub _ _ (congrFun h' 0)
  simp only at key
  have hd : addGumbel (fun _ : Fin 2 => (0 : ℝ)) ![0, 1/2] 1 =
      addGumbel (fun _ : Fin 2 => (0 : ℝ)) ![0, 1/2] 0 := by linarith
  -- both softmax terms of the zero logits are equal, so the noise terms must agree
  have hA1pos : (0 : ℝ) < -Real.log ((1 : ℝ) / 2 + gumbelEps) + gumbelEps := by
    have : Real.log ((1 : ℝ) / 2 + gumbelEps) < 0 :=
      Real.log_neg (by norm_num [gumbelEps]) (by norm_num [gumbelEps])
    linarith
  have hA0pos : (0 : ℝ) < -Real.log ((0 : ℝ) + gumbelEps) + gumbelEps := by
    have : Real.log ((0 : ℝ) + gumbelEps) < 0 := by
      rw [zero_add]
      exact Real.log_neg gumbelEps_pos (by norm_num [gumbelEps])
    linarith
  rw [addGumbel, addGumbel] at hd
  simp only [Matrix.cons_val_one, Matrix.head_cons, Matrix.cons_val_zero] at hd
  have hsm : softmax (fun _ : Fin 2 => (0 : ℝ)) 1 = softmax (fun _ : Fin 2 => (0 : ℝ)) 0 := rfl
  have hlogA : Real.log (-Real.log ((1 : ℝ) / 2 + gumbelEps) + gumbelEps) =
      Real.log (-Real.log ((0 : ℝ) + gumbelEps) + gumbelEps) := by
    rw [hsm] at hd
    linarith
  have hA : -Real.log ((1 : ℝ) / 2 + gumbelEps) + gumbelEps =
      -Real.log ((0 : ℝ) + gumbelEps) + gumbelEps := by
    have := congrArg Real.exp hlogA
    rwa [Real.exp_log hA1pos, Real.exp_log hA0pos] at this
  have hlogeq : Real.log ((1 : ℝ) / 2 + gumbelEps) = Real.log ((0 : ℝ) + gumbelEps) := by
    linarith
  have hfinal : (1 : ℝ) / 2 + gumbelEps = (0 : ℝ) + gumbelEps := by
    have := congrArg Real.exp hlogeq
    rwa [Real.exp_log (by norm_num [gumbelEps]), Real.exp_log (by rw [zero_add]; exact gumbelEps_pos)]
      at this
  norm_num at hfinal

/-- C6 as amended: the continuous relaxation produced by a sampler step is the
softmax of the Gumbel-perturbed logits multiplied by the temperature,
`pred = softmax(gumbel_t * temperature)`, and it is a point of the simplex. -/
theorem step_pred_softmax_times_temperature {n : ℕ} (theta_logit u : Fin (n + 1) → ℝ)
    (temperature : ℝ) :
    (gumbelStep theta_logit u temperature).pred =
      softmax (fun i => addGumbel theta_logit u i * temperature) ∧
    ∑ i, (gumbelStep theta_logit u temperature).pred i = 1 := by
  refine ⟨rfl, ?_⟩
  have hS : (0 : ℝ) < ∑ j, Real.exp (addGumbel theta_logit u j * temperature) :=
    Finset.sum_pos (fun j _ => Real.exp_pos _) Finset.univ_nonempty
  show ∑ i, softmax (fun i => addGumbel theta_logit u i * temperature) i = 1
  simp only [softmax]
  rw [← Finset.sum_div]
  exact div_self hS.ne'
